import Mathlib

/-!
Verification of the natural-language specification of `mlp.py`, a small
multilayer-perceptron trainer with mini-batch gradient descent, momentum,
and a parallel hyperparameter grid search.

The Python source is shallowly embedded below.  Machine floats are modelled
as real numbers (`ℝ`) for the network mathematics and as rationals (`ℚ`)
where exact executable evaluation matters (dataset loader, experiment
scheduler).  Fallible Python code (exceptions such as `ValueError`,
`IndexError` and `ZeroDivisionError`) is modelled with `Option`: `none`
means the Python code raises.
-/

/-! ## Dataset loader (`read_csv`)

`read_csv` reads comma-separated lines; the first field is the digit label,
the remaining fields are pixel intensities.  Python's `int(field)` is
modelled by `parseInt` on the field's characters (sign followed by decimal
digits; anything else raises `ValueError`, i.e. `none`).  The one-hot
target is the column `digit` of the 10×10 identity matrix
(`digits[:, digit]`); numpy accepts indices `-10 ≤ digit ≤ 9`, wrapping
negative ones, and raises `IndexError` otherwise. -/

def digitVal (c : Char) : Option ℕ :=
  if '0' ≤ c ∧ c ≤ '9' then some (c.toNat - '0'.toNat) else none

def digitsVal : List Char → Option ℕ → Option ℕ
  | [], acc => acc
  | c :: rest, acc =>
    match digitVal c, acc with
    | some d, some n => digitsVal rest (some (10 * n + d))
    | some d, none => digitsVal rest (some d)
    | none, _ => none

/-- Model of Python's `int(...)` applied to one comma-separated field. -/
def parseInt (s : String) : Option ℤ :=
  match s.data with
  | '-' :: rest => (digitsVal rest none).map (fun n => -(n : ℤ))
  | '+' :: rest => (digitsVal rest none).map (fun n => (n : ℤ))
  | l => (digitsVal l none).map (fun n => (n : ℤ))

/-- Column `d` of `np.asmatrix(np.eye(10))`, i.e. `digits[:, d]`:
one-hot at index `d % 10` for `-10 ≤ d ≤ 9`, `IndexError` otherwise. -/
def oneHotCol (d : ℤ) : Option (List ℚ) :=
  if -10 ≤ d ∧ d ≤ 9 then
    some ((List.range 10).map fun i : ℕ => if (i : ℤ) = d % 10 then (1 : ℚ) else 0)
  else none

/-- One line of `read_csv`'s loop, on the comma-split fields of the line:
`digit = next(img)` parses the first field, `np.fromiter(img, ...)` parses
the rest, pixels are divided by `255.0`, the target is `digits[:, digit]`. -/
def parseLine (fields : List String) : Option (List ℚ × List ℚ) :=
  match fields with
  | [] => none
  | label :: pixels => do
    let d ← parseInt label
    let ps ← pixels.mapM parseInt
    let target ← oneHotCol d
    return (ps.map fun p : ℤ => (p : ℚ) / 255, target)

/-- `read_csv`, taking the file as its list of comma-split lines.  A parse
failure on any line aborts the whole load (the exception propagates out of
the `for` loop before `data` is returned). -/
def read_csv (lines : List (List String)) : Option (List (List ℚ × List ℚ)) :=
  lines.mapM parseLine

/-! ## Experiment scheduler

`params = [ratio or default, batch or default, hidden or default]`;
if all three lists are singletons the experiment list is that single
triple, otherwise `itertools.product` of the three lists.  Afterwards
`experiments = [e for e in experiments if not (e in unique or unique.add(e))]`
drops every combination already seen, keeping first occurrences in order. -/

abbrev Combo := ℚ × ℚ × ℤ

def buildExperiments (ratios batches : List ℚ) (hiddens : List ℤ) : List Combo :=
  if ratios.length = 1 ∧ batches.length = 1 ∧ hiddens.length = 1 then
    [(ratios.headD 0, batches.headD 0, hiddens.headD 0)]
  else
    ratios.flatMap fun r => batches.flatMap fun b => hiddens.map fun h => (r, b, h)

/-- The dedup list comprehension: `seen` holds the contents of `unique`. -/
def dedupGo (seen : List Combo) : List Combo → List Combo
  | [] => []
  | e :: rest => if e ∈ seen then dedupGo seen rest else e :: dedupGo (e :: seen) rest

def dedupExperiments (l : List Combo) : List Combo := dedupGo [] l

/-- Modelled from the spec: the straightforward first-seen-order dedupe the
spec describes (keep each combination the first time it appears). -/
def specDedup (l : List Combo) : List Combo :=
  l.foldl (fun acc e => if e ∈ acc then acc else acc ++ [e]) []

/-- The scheduler's final task list: build, then deduplicate. -/
def experiments (ratios batches : List ℚ) (hiddens : List ℤ) : List Combo :=
  dedupExperiments (buildExperiments ratios batches hiddens)

/-! ## Network mathematics (`sigm`, `dsigm`, `dcost`, `execute`,
`gradients`, `delta`, `cost`, `error`)

Vectors are lists of reals, matrices are lists of rows.  Weight matrix `w`
for a layer with `nf` inputs and `nt` outputs has `nf + 1` rows (row 0 is
the bias row) of length `nt`.  `np.float64` overflow in `np.exp` is
ignored by the source (`errstate(over = 'ignore')`, saturating), so the
real-valued sigmoid is the faithful model. -/

abbrev Vec := List ℝ
abbrev Mat := List Vec

noncomputable def dot (a b : Vec) : ℝ := (List.zipWith (· * ·) a b).sum

/-- Number of columns of a row-major matrix. -/
def matCols (M : Mat) : ℕ := (M.headD []).length

/-- `np.dot(v, M)` for a row vector `v`: entry `k` is `Σ i, v i * M i k`. -/
noncomputable def vecMatMul (v : Vec) (M : Mat) : Vec :=
  (List.range (matCols M)).map fun k =>
    (List.zipWith (fun x row => x * row.getD k 0) v M).sum

/-- Matrix times column vector (`M * v` on an `np.matrix`). -/
noncomputable def matVecMul (M : Mat) (v : Vec) : Vec := M.map fun row => dot row v

noncomputable def sigm (x : ℝ) : ℝ := 1 / (1 + Real.exp (-x))

noncomputable def dsigm (x : ℝ) : ℝ := x * (1 - x)

noncomputable def dcost (expect predict : Vec) : Vec :=
  List.zipWith (· - ·) predict expect

/-- Forward pass: `inp = sigm(np.dot(np.append(1.0, inp), w).T)` for every
layer, collecting each layer's activated output. -/
noncomputable def execute (inp : Vec) : List Mat → List Vec
  | [] => []
  | w :: rest =>
    let o := (vecMatMul ((1 : ℝ) :: inp) w).map sigm
    o :: execute o rest

/-- Backpropagation: `result[-1] = dcost(expect, out[-1])` and, walking
from the second-to-last layer back to the first,
`result[i] = weights[i + 1][1 : ] * result[i + 1]`. -/
noncomputable def gradients (expect : Vec) (out : List Vec) : List Mat → List Vec
  | [] => []
  | [_] => [dcost expect (out.getLastD [])]
  | _ :: w2 :: rest =>
    let g := gradients expect out (w2 :: rest)
    matVecMul (w2.drop 1) (g.headD []) :: g

/-- Per-sample weight deltas: `np.outer(np.append(1.0, inp), g)` for each
layer, with `inp` chained through the layer outputs. -/
noncomputable def delta (inp : Vec) : List Vec → List Vec → List Mat
  | g :: gs, o :: os =>
    (((1 : ℝ) :: inp).map fun x => g.map fun y => x * y) :: delta o gs os
  | _, _ => []

/-- `np.argmax`: index of the first occurrence of the maximum. -/
noncomputable def argmaxGo : List ℝ → ℕ → ℕ → ℝ → ℕ
  | [], _, best, _ => best
  | x :: rest, i, best, bv =>
    if bv < x then argmaxGo rest (i + 1) i x else argmaxGo rest (i + 1) best bv

noncomputable def argmax : Vec → ℕ
  | [] => 0
  | x :: rest => argmaxGo rest 1 0 x

/-- The mismatch counter inside `error`. -/
noncomputable def errCount (data : List (Vec × Vec)) (ws : List Mat) : ℕ :=
  data.foldl
    (fun c s =>
      if argmax s.2 ≠ argmax ((execute s.1 ws).getLastD []) then c + 1 else c)
    0

/-- Classification error rate: `count / len(data)`.  Python raises
`ZeroDivisionError` on an empty dataset, modelled by `none`. -/
noncomputable def error (data : List (Vec × Vec)) (ws : List Mat) : Option ℝ :=
  if data.length = 0 then none
  else some ((errCount data ws : ℝ) / (data.length : ℝ))

open Classical in
/-- One sample's contribution inside `cost`: re-normalize the prediction
when its sum is positive, then `log(1 - p)` on zero-target entries and
`e * log p` on the others, summed. -/
noncomputable def sampleCost (ws : List Mat) (s : Vec × Vec) : ℝ :=
  let predict := (execute s.1 ws).getLastD []
  let psum := predict.sum
  let predict := if 0 < psum then predict.map (· / psum) else predict
  (List.zipWith
    (fun e p => if e = 0 then Real.log (1 - p) else e * Real.log p)
    s.2 predict).sum

/-- Cross-entropy-like diagnostic cost: `accum / len(data)`, with
`accum -= predict.sum()` per sample; `ZeroDivisionError` on empty data. -/
noncomputable def cost (data : List (Vec × Vec)) (ws : List Mat) : Option ℝ :=
  if data.length = 0 then none
  else some ((data.foldl (fun a s => a - sampleCost ws s) 0) / (data.length : ℝ))

/-! ## Trainer (`mlp`)

Elementwise numpy arithmetic on (python lists of) weight matrices. -/

noncomputable def vAdd (a b : Vec) : Vec := List.zipWith (· + ·) a b
noncomputable def vSub (a b : Vec) : Vec := List.zipWith (· - ·) a b
noncomputable def mAdd (A B : Mat) : Mat := List.zipWith vAdd A B
noncomputable def mSub (A B : Mat) : Mat := List.zipWith vSub A B
noncomputable def mScale (c : ℝ) (A : Mat) : Mat := A.map fun r => r.map (c * ·)
noncomputable def mDivNat (A : Mat) (n : ℕ) : Mat := A.map fun r => r.map (· / (n : ℝ))
noncomputable def wAdd (X Y : List Mat) : List Mat := List.zipWith mAdd X Y
noncomputable def wSub (X Y : List Mat) : List Mat := List.zipWith mSub X Y
noncomputable def wScale (c : ℝ) (X : List Mat) : List Mat := X.map (mScale c)
noncomputable def wDivNat (X : List Mat) (n : ℕ) : List Mat := X.map (mDivNat · n)

/-- `[np.zeros(w.shape, w.dtype) for w in weights]`. -/
noncomputable def wZero (X : List Mat) : List Mat :=
  X.map fun M => M.map fun r => r.map fun _ => (0 : ℝ)

/-- The update at `mlp.py:203`:
`np.add(weights, np.subtract(np.multiply(momentum, old),
np.multiply(ratio, np.divide(accum, batch_size))))`. -/
noncomputable def updateWeights (momentum rate : ℝ) (weights old accum : List Mat)
    (bs : ℕ) : List Mat :=
  wAdd weights (wSub (wScale momentum old) (wScale rate (wDivNat accum bs)))

structure SweepState where
  weights : List Mat
  old : List Mat
  accum : List Mat
  batchSize : ℕ

structure MLPConfig where
  momentum : ℝ
  rate : ℝ            -- the learning rate, `ratio` in the source
  batch : ℕ∞          -- `np.inf` (⊤) means full-batch
  stop : ℝ
  useValidate : Bool
  validate : List (Vec × Vec)
  shuffle : ℕ → List (Vec × Vec) → List (Vec × Vec)  -- `np.random.shuffle` oracle
  maxGen : ℕ

/-- The accumulator after processing one sample: forward pass,
backpropagation, `accum = np.add(accum, delta(inp, grads, out))`. -/
noncomputable def accumAfter (sample : Vec × Vec) (s : SweepState) : List Mat :=
  wAdd s.accum
    (delta sample.1
      (gradients sample.2 (execute sample.1 s.weights) s.weights)
      (execute sample.1 s.weights))

/-- Body of `for j, (inp, expect) in enumerate(train)` (`n = len(train)`). -/
noncomputable def sweepStep (cfg : MLPConfig) (n j : ℕ) (sample : Vec × Vec)
    (s : SweepState) : SweepState :=
  let accum := accumAfter sample s
  let bs := s.batchSize + 1
  if ((bs : ℕ) : ℕ∞) = cfg.batch ∨ j + 1 = n then
    let nw := updateWeights cfg.momentum cfg.rate s.weights s.old accum bs
    { weights := nw, old := s.weights, accum := wZero nw, batchSize := 0 }
  else
    { s with accum := accum, batchSize := bs }

noncomputable def sweepGo (cfg : MLPConfig) (n : ℕ) :
    List (Vec × Vec) → ℕ → SweepState → SweepState
  | [], _, s => s
  | x :: rest, j, s => sweepGo cfg n rest (j + 1) (sweepStep cfg n j x s)

structure MLPState where
  weights : List Mat
  old : List Mat
  train : List (Vec × Vec)
  trainErrors : List ℝ
  validateErrors : List ℝ
  gen : ℕ

/-- The state a generation hands to the next one after the convergence
check has failed: trajectory appends, the in-place shuffle, and the
mini-batch sweep over the shuffled data. -/
noncomputable def genNext (cfg : MLPConfig) (s : MLPState) (terr verr : ℝ) : MLPState :=
  let s1 := if cfg.useValidate
    then { s with validateErrors := s.validateErrors ++ [verr] }
    else s
  let s2 := { s1 with trainErrors := s1.trainErrors ++ [terr] }
  let shuffled := cfg.shuffle s2.gen s2.train
  let fin := sweepGo cfg shuffled.length shuffled 0
    ⟨s2.weights, s2.old, wZero s2.weights, 0⟩
  { s2 with train := shuffled, weights := fin.weights, old := fin.old }

open Classical in
/-- One generation of the `while` loop after `gen += 1`: error rates, the
convergence check, diagnostic costs, then `genNext`.  `Sum.inr` is the
`break` (convergence) exit, `Sum.inl` continues; `Option.bind` is the
propagation of an uncaught exception (empty dataset). -/
noncomputable def genStep (cfg : MLPConfig) (s : MLPState) :
    Option (MLPState ⊕ MLPState) :=
  (error s.train s.weights).bind fun terr =>
    (if cfg.useValidate then error cfg.validate s.weights else some terr).bind
      fun verr =>
        if verr ≤ cfg.stop then some (Sum.inr s)
        else
          (cost s.train s.weights).bind fun tcost =>
            (if cfg.useValidate then cost cfg.validate s.weights
              else some tcost).bind
              fun _ => some (Sum.inl (genNext cfg s terr verr))

/-- `while gen < generations`, running on the remaining generation budget. -/
noncomputable def mlpLoop (cfg : MLPConfig) : ℕ → MLPState → Option MLPState
  | 0, s => some s
  | r + 1, s =>
    (genStep cfg { s with gen := s.gen + 1 }).bind fun step =>
      match step with
      | Sum.inr s2 => some s2
      | Sum.inl s2 => mlpLoop cfg r s2

/-- A whole `mlp` run: `old = weights` initially, empty trajectories,
`gen = 0`. -/
noncomputable def mlp (cfg : MLPConfig) (w0 : List Mat)
    (train0 : List (Vec × Vec)) : Option MLPState :=
  mlpLoop cfg cfg.maxGen ⟨w0, w0, train0, [], [], 0⟩

/-! ## Lemmas about the experiment scheduler -/

lemma mem_dedupGo : ∀ (l seen : List Combo) (x : Combo),
    x ∈ dedupGo seen l ↔ x ∈ l ∧ x ∉ seen := by
  intro l
  induction l with
  | nil => intro seen x; simp [dedupGo]
  | cons e rest ih =>
    intro seen x
    by_cases he : e ∈ seen <;> by_cases hxe : x = e
    · subst hxe
      simp [dedupGo, if_pos he, ih, he]
    · simp [dedupGo, if_pos he, ih, hxe]
    · subst hxe
      simp [dedupGo, if_neg he, ih, he]
    · simp [dedupGo, if_neg he, ih, hxe]

lemma nodup_dedupGo : ∀ (l seen : List Combo), (dedupGo seen l).Nodup := by
  intro l
  induction l with
  | nil => intro seen; simp [dedupGo]
  | cons e rest ih =>
    intro seen
    by_cases he : e ∈ seen
    · simpa [dedupGo, he] using ih seen
    · rw [dedupGo, if_neg he]
      refine List.nodup_cons.mpr ⟨?_, ih _⟩
      intro hmem
      exact ((mem_dedupGo rest (e :: seen) e).mp hmem).2 (List.mem_cons_self _ _)

lemma sublist_dedupGo : ∀ (l seen : List Combo), List.Sublist (dedupGo seen l) l := by
  intro l
  induction l with
  | nil => intro seen; simp [dedupGo]
  | cons e rest ih =>
    intro seen
    by_cases he : e ∈ seen
    · rw [dedupGo, if_pos he]; exact (ih seen).cons _
    · rw [dedupGo, if_neg he]; exact (ih _).cons₂ _

lemma foldl_dedup_eq : ∀ (l seen acc : List Combo),
    (∀ x : Combo, x ∈ seen ↔ x ∈ acc) →
    l.foldl (fun a e => if e ∈ a then a else a ++ [e]) acc = acc ++ dedupGo seen l := by
  intro l
  induction l with
  | nil => intro seen acc h; simp [dedupGo]
  | cons e rest ih =>
    intro seen acc h
    by_cases he : e ∈ seen
    · rw [List.foldl_cons, dedupGo, if_pos he, if_pos ((h e).mp he)]
      exact ih seen acc h
    · rw [List.foldl_cons, dedupGo, if_neg he,
        if_neg (fun hacc => he ((h e).mpr hacc)),
        ih (e :: seen) (acc ++ [e]) (fun x => by simp [List.mem_append, h x, or_comm])]
      simp

lemma dedup_eq_spec (l : List Combo) : dedupExperiments l = specDedup l := by
  rw [specDedup, foldl_dedup_eq l [] [] (by simp)]
  simp [dedupExperiments]

lemma length_dedup (l : List Combo) : (dedupExperiments l).length = l.toFinset.card := by
  have hnd : (dedupExperiments l).Nodup := nodup_dedupGo l []
  have hfs : (dedupExperiments l).toFinset = l.toFinset := by
    ext x; simp [dedupExperiments, mem_dedupGo]
  rw [← hfs, List.toFinset_card_of_nodup hnd]

lemma build_product (ratios batches : List ℚ) (hiddens : List ℤ)
    (h : ¬(ratios.length = 1 ∧ batches.length = 1 ∧ hiddens.length = 1)) :
    buildExperiments ratios batches hiddens
      = List.product ratios (List.product batches hiddens) := by
  rw [buildExperiments, if_neg h]
  show _ = ratios.flatMap fun a => (batches.flatMap fun b => hiddens.map fun h2 => (b, h2)).map fun p => (a, p)
  simp [List.map_flatMap, List.map_map, Function.comp_def]

/-- C7 — the experiment list is the single combination when all three
hyperparameter lists are singletons and the full Cartesian product
otherwise, and the scheduler deduplicates it by exact value equality
preserving first-seen order, so the task list has one entry per distinct
combination. -/
theorem scheduler_experiments_spec (ratios batches : List ℚ) (hiddens : List ℤ)
    (l : List Combo) :
    (ratios.length = 1 ∧ batches.length = 1 ∧ hiddens.length = 1 →
      experiments ratios batches hiddens
        = [(ratios.headD 0, batches.headD 0, hiddens.headD 0)]) ∧
    (¬(ratios.length = 1 ∧ batches.length = 1 ∧ hiddens.length = 1) →
      buildExperiments ratios batches hiddens
        = List.product ratios (List.product batches hiddens)) ∧
    dedupExperiments l = specDedup l ∧
    (dedupExperiments l).Nodup ∧
    List.Sublist (dedupExperiments l) l ∧
    (dedupExperiments l).length = l.toFinset.card := by
  refine ⟨fun h => ?_, build_product _ _ _, dedup_eq_spec l, nodup_dedupGo l [],
    sublist_dedupGo l [], length_dedup l⟩
  rw [experiments, buildExperiments, if_pos h]
  simp [dedupExperiments, dedupGo]

/-- Witness for C7 at concrete inputs. -/
theorem scheduler_experiments_spec_witness :
    (([(1 : ℚ)].length = 1 ∧ [(2 : ℚ)].length = 1 ∧ [(3 : ℤ)].length = 1) ∧
      experiments [(1 : ℚ)] [(2 : ℚ)] [(3 : ℤ)] = [((1 : ℚ), (2 : ℚ), (3 : ℤ))]) ∧
    dedupExperiments [((1 : ℚ), 2, 3), ((1 : ℚ), 2, 3), ((4 : ℚ), 5, 6)]
      = specDedup [((1 : ℚ), 2, 3), ((1 : ℚ), 2, 3), ((4 : ℚ), 5, 6)] :=
  ⟨⟨by decide,
      (scheduler_experiments_spec [(1 : ℚ)] [(2 : ℚ)] [(3 : ℤ)] []).1 (by decide)⟩,
    (scheduler_experiments_spec [] [] []
      [((1 : ℚ), 2, 3), ((1 : ℚ), 2, 3), ((4 : ℚ), 5, 6)]).2.2.1⟩

/-! ## Lemmas about the dataset loader -/

lemma optionMapM_none {α β : Type} (f : α → Option β) :
    ∀ (l : List α) (a : α), a ∈ l → f a = none → l.mapM f = none := by
  intro l
  induction l with
  | nil => intro a ha; exact absurd ha (List.not_mem_nil a)
  | cons b rest ih =>
    intro a ha hf
    rw [← List.mapM'_eq_mapM]
    rcases List.mem_cons.mp ha with rfl | h
    · simp [List.mapM', hf]
    · have hrest : rest.mapM f = none := ih a h hf
      rw [← List.mapM'_eq_mapM] at hrest
      cases hfb : f b <;> simp [List.mapM', hfb, hrest]

lemma optionMapM_some {α β : Type} (f : α → Option β) :
    ∀ (l : List α) (res : List β), l.mapM f = some res →
      res.length = l.length ∧ ∀ x ∈ l, f x ≠ none := by
  intro l
  induction l with
  | nil =>
    intro res h
    rw [← List.mapM'_eq_mapM] at h
    simp [List.mapM'] at h
    simp [← h]
  | cons b rest ih =>
    intro res h
    rw [← List.mapM'_eq_mapM] at h
    cases hfb : f b with
    | none => simp [List.mapM', hfb] at h
    | some y =>
      simp only [List.mapM', hfb, Option.bind_eq_bind, Option.some_bind,
        Option.pure_def, Option.some.injEq] at h
      cases hrest : rest.mapM' f with
      | none => rw [hrest] at h; simp at h
      | some ys =>
        rw [hrest] at h
        simp only [Option.some_bind, Option.some.injEq] at h
        rw [List.mapM'_eq_mapM] at hrest
        obtain ⟨hlen, hall⟩ := ih ys hrest
        subst h
        constructor
        · simp [hlen]
        · intro x hx
          rcases List.mem_cons.mp hx with rfl | hx2
          · simp [hfb]
          · exact hall x hx2

lemma parseLine_cons (label : String) (pixels : List String) :
    parseLine (label :: pixels) = (parseInt label).bind fun d =>
      (pixels.mapM parseInt).bind fun ps => (oneHotCol d).bind fun target =>
        some (ps.map fun p : ℤ => (p : ℚ) / 255, target) := rfl

lemma parseLine_none_of_field (l : List String) (f : String) (hf : f ∈ l)
    (hp : parseInt f = none) : parseLine l = none := by
  match l with
  | [] => rfl
  | label :: pixels =>
    rcases List.mem_cons.mp hf with rfl | hmem
    · rw [parseLine_cons, hp]
      rfl
    · have hnone : pixels.mapM parseInt = none :=
        optionMapM_none parseInt pixels f hmem hp
      cases hl : parseInt label with
      | none => rw [parseLine_cons, hl]; rfl
      | some d =>
        rw [parseLine_cons, hl, Option.some_bind, hnone]
        rfl

/-- C8 counterexample — a record with the wrong field count (2 fields
instead of 785) does NOT propagate a parse failure: the load succeeds and
silently yields a one-sample dataset whose input has a single pixel. -/
theorem loader_wrong_field_count_cex :
    read_csv [["3", "0"]] ≠ none ∧
    (read_csv [["3", "0"]]).map (fun data => data.map fun s => s.1.length)
      = some [1] := by
  constructor
  · exact Option.ne_none_iff_isSome.mpr (rfl : (read_csv [["3", "0"]]).isSome = true)
  · rfl

/-- C8 (amended) — a record with a non-numeric value propagates a parse
failure that aborts the whole load, and a successful load is
all-or-nothing: it has one sample per input record and every record
parsed, so no partial dataset is ever returned.  (Wrong field counts are
not detected.) -/
theorem loader_fail_fast (lines : List (List String)) :
    (∀ l ∈ lines, ∀ f ∈ l, parseInt f = none → read_csv lines = none) ∧
    (∀ data, read_csv lines = some data →
      data.length = lines.length ∧ ∀ l ∈ lines, parseLine l ≠ none) := by
  constructor
  · intro l hl f hf hp
    exact optionMapM_none parseLine lines l hl (parseLine_none_of_field l f hf hp)
  · intro data h
    exact optionMapM_some parseLine lines data h

/-- Witness for C8's amended theorem at a concrete non-numeric record. -/
theorem loader_fail_fast_witness :
    parseInt "x" = none ∧ read_csv [["x"]] = none :=
  ⟨by decide,
    (loader_fail_fast [["x"]]).1 ["x"] (by simp) "x" (by simp) (by decide)⟩

/-! ## Loader round-trip (well-formed records) -/

/-- A well-formed record in the sense of the spec: an integer label in
0–9 followed by 784 integer pixel intensities in 0–255. -/
def wellFormedLine (l : List String) : Prop :=
  ∃ label pixels, l = label :: pixels ∧
    (∃ d : ℤ, parseInt label = some d ∧ 0 ≤ d ∧ d ≤ 9) ∧
    pixels.length = 784 ∧
    ∀ f ∈ pixels, ∃ p : ℤ, parseInt f = some p ∧ 0 ≤ p ∧ p ≤ 255

lemma mapM_parseInt_bounds : ∀ (pixels : List String),
    (∀ f ∈ pixels, ∃ p : ℤ, parseInt f = some p ∧ 0 ≤ p ∧ p ≤ 255) →
    ∃ ps : List ℤ, pixels.mapM parseInt = some ps ∧ ps.length = pixels.length ∧
      ∀ p ∈ ps, 0 ≤ p ∧ p ≤ 255 := by
  intro pixels
  induction pixels with
  | nil => intro h; exact ⟨[], by rw [← List.mapM'_eq_mapM]; rfl, rfl, by simp⟩
  | cons f rest ih =>
    intro h
    obtain ⟨p, hp, hp0, hp255⟩ := h f (List.mem_cons_self _ _)
    obtain ⟨ps, hps, hlen, hbound⟩ := ih (fun g hg => h g (List.mem_cons_of_mem _ hg))
    refine ⟨p :: ps, ?_, by simp [hlen], ?_⟩
    · rw [← List.mapM'_eq_mapM] at hps ⊢
      simp [List.mapM', hp, hps]
    · intro q hq
      rcases List.mem_cons.mp hq with rfl | hq2
      · exact ⟨hp0, hp255⟩
      · exact hbound q hq2

lemma oneHot_sum (d : ℤ) (h0 : 0 ≤ d) (h9 : d ≤ 9) :
    (((List.range 10).map fun i : ℕ => if (i : ℤ) = d then (1 : ℚ) else 0)).sum = 1 := by
  interval_cases d <;> simp [List.range_succ]

lemma parseLine_wf (l : List String) (h : wellFormedLine l) :
    ∃ (d : ℤ) (ps : List ℤ),
      parseInt (l.headD "") = some d ∧ 0 ≤ d ∧ d ≤ 9 ∧
      (l.tail).mapM parseInt = some ps ∧ ps.length = 784 ∧
      (∀ p ∈ ps, 0 ≤ p ∧ p ≤ 255) ∧
      parseLine l = some (ps.map fun p : ℤ => (p : ℚ) / 255,
        (List.range 10).map fun i : ℕ => if (i : ℤ) = d then (1 : ℚ) else 0) := by
  obtain ⟨label, pixels, rfl, ⟨d, hd, hd0, hd9⟩, hplen, hpix⟩ := h
  obtain ⟨ps, hps, hlen, hbound⟩ := mapM_parseInt_bounds pixels hpix
  refine ⟨d, ps, by simpa using hd, hd0, hd9, by simpa using hps,
    hlen.trans hplen, hbound, ?_⟩
  rw [parseLine_cons, hd, Option.some_bind, hps, Option.some_bind,
    oneHotCol, if_pos ⟨by omega, hd9⟩, Option.some_bind,
    Int.emod_eq_of_lt hd0 (by omega)]

/-- C9 — loading N well-formed records yields a dataset of length N in
document order; each target is the width-10 one-hot row selected by the
label (summing to exactly 1) and each input entry is pixel / 255, hence
in the unit interval. -/
theorem read_csv_roundtrip (lines : List (List String))
    (h : ∀ l ∈ lines, wellFormedLine l) :
    ∃ data, read_csv lines = some data ∧ data.length = lines.length ∧
      ∀ i, i < lines.length →
        parseLine (lines.getD i []) = some (data.getD i ([], [])) ∧
        (∃ d : ℤ, parseInt ((lines.getD i []).headD "") = some d ∧
          (data.getD i ([], [])).2
            = (List.range 10).map fun k : ℕ => if (k : ℤ) = d then (1 : ℚ) else 0) ∧
        (data.getD i ([], [])).2.sum = 1 ∧
        (∃ ps : List ℤ, ((lines.getD i []).tail).mapM parseInt = some ps ∧
          (data.getD i ([], [])).1 = ps.map fun p : ℤ => (p : ℚ) / 255) ∧
        (data.getD i ([], [])).1.length = 784 ∧
        ∀ x ∈ (data.getD i ([], [])).1, 0 ≤ x ∧ x ≤ 1 := by
  induction lines with
  | nil =>
    refine ⟨[], by rw [read_csv, ← List.mapM'_eq_mapM]; rfl, rfl, ?_⟩
    intro i hi
    exact absurd hi (by simp)
  | cons l rest ih =>
    obtain ⟨data, hcsv, hlen, hfacts⟩ := ih (fun g hg => h g (List.mem_cons_of_mem _ hg))
    obtain ⟨d, ps, hd, hd0, hd9, hps, hpslen, hbound, hpl⟩ :=
      parseLine_wf l (h l (List.mem_cons_self _ _))
    refine ⟨(ps.map fun p : ℤ => (p : ℚ) / 255,
        (List.range 10).map fun k : ℕ => if (k : ℤ) = d then (1 : ℚ) else 0) :: data,
      ?_, by simp [hlen], ?_⟩
    · rw [read_csv, ← List.mapM'_eq_mapM]
      rw [read_csv, ← List.mapM'_eq_mapM] at hcsv
      simp [List.mapM', hpl, hcsv]
    · intro i hi
      cases i with
      | zero =>
        refine ⟨by simpa using hpl, ⟨d, by simpa using hd, by simp⟩,
          by simpa using oneHot_sum d hd0 hd9,
          ⟨ps, by simpa using hps, by simp⟩, by simp [hpslen], ?_⟩
        intro x hx
        simp only [List.getD_cons_zero] at hx
        obtain ⟨p, hp, rfl⟩ := List.mem_map.mp hx
        obtain ⟨h0, h255⟩ := hbound p hp
        constructor
        · exact div_nonneg (by exact_mod_cast h0) (by norm_num)
        · rw [div_le_one (by norm_num)]
          exact_mod_cast h255
      | succ j =>
        have hj : j < rest.length := by
          simp only [List.length_cons] at hi
          omega
        simp only [List.getD_cons_succ]
        exact hfacts j hj

def goodLineC9 : List String := "5" :: List.replicate 784 "0"

/-- Witness for C9 at a concrete well-formed 785-field record. -/
theorem read_csv_roundtrip_witness :
    (∀ l ∈ [goodLineC9], wellFormedLine l) ∧
    ∃ data, read_csv [goodLineC9] = some data ∧ data.length = 1 := by
  have hwf : ∀ l ∈ [goodLineC9], wellFormedLine l := by
    intro l hl
    rw [List.mem_singleton] at hl
    subst hl
    exact ⟨"5", List.replicate 784 "0", rfl,
      ⟨5, by decide, by decide, by decide⟩,
      List.length_replicate 784 "0",
      fun f hf => by
        rw [List.eq_of_mem_replicate hf]
        exact ⟨0, by decide, by decide, by decide⟩⟩
  obtain ⟨data, h1, h2, -⟩ := read_csv_roundtrip [goodLineC9] hwf
  exact ⟨hwf, data, h1, by simpa using h2⟩

/-! ## Lemmas about the network mathematics -/

lemma getLastD_cons_of_ne_nil {α : Type} (a d : α) (l : List α) (h : l ≠ []) :
    (a :: l).getLastD d = l.getLastD d := by
  rw [List.getLastD_cons, List.getLastD_eq_getLast?, List.getLastD_eq_getLast?]
  cases hl : l.getLast? with
  | none => exact absurd (List.getLast?_eq_none_iff.mp hl) h
  | some x => rfl

lemma headD_eq_getD_zero {α : Type} (d : α) (l : List α) : l.headD d = l.getD 0 d := by
  cases l <;> rfl

lemma gradients_length (expect : Vec) (out : List Vec) :
    ∀ ws : List Mat, (gradients expect out ws).length = ws.length := by
  intro ws
  induction ws with
  | nil => rfl
  | cons w rest ih =>
    cases rest with
    | nil => rfl
    | cons w2 rest2 => simp only [gradients, List.length_cons, ih]

lemma gradients_last (expect : Vec) (out : List Vec) :
    ∀ ws : List Mat, ws ≠ [] →
      (gradients expect out ws).getLastD [] = dcost expect (out.getLastD []) := by
  intro ws
  induction ws with
  | nil => intro h; exact absurd rfl h
  | cons w rest ih =>
    intro _
    cases rest with
    | nil => rfl
    | cons w2 rest2 =>
      have hne : gradients expect out (w2 :: rest2) ≠ [] := by
        intro h
        have := gradients_length expect out (w2 :: rest2)
        rw [h] at this
        exact absurd this.symm (by simp)
      rw [show gradients expect out (w :: w2 :: rest2)
          = matVecMul (w2.drop 1)
              ((gradients expect out (w2 :: rest2)).headD [])
            :: gradients expect out (w2 :: rest2) from rfl,
        getLastD_cons_of_ne_nil _ _ _ hne]
      exact ih (by simp)

lemma gradients_chain (expect : Vec) (out : List Vec) :
    ∀ (ws : List Mat) (i : ℕ), i + 1 < ws.length →
      (gradients expect out ws).getD i []
        = matVecMul ((ws.getD (i + 1) []).drop 1)
            ((gradients expect out ws).getD (i + 1) []) := by
  intro ws
  induction ws with
  | nil => intro i hi; exact absurd hi (by simp)
  | cons w rest ih =>
    intro i hi
    cases rest with
    | nil => simp at hi
    | cons w2 rest2 =>
      have hunf : gradients expect out (w :: w2 :: rest2)
          = matVecMul (w2.drop 1)
              ((gradients expect out (w2 :: rest2)).headD [])
            :: gradients expect out (w2 :: rest2) := rfl
      cases i with
      | zero =>
        rw [hunf]
        simp only [List.getD_cons_zero, List.getD_cons_succ]
        rw [headD_eq_getD_zero]
      | succ j =>
        rw [hunf]
        simp only [List.getD_cons_succ]
        exact ih j (by simpa using hi)

/-- C2 — in backpropagation the final layer's gradient is
`predicted − target`, and every earlier layer's gradient is the next
layer's weight matrix with its bias row removed applied to the next
layer's gradient; no inner gradient is multiplied by its own activation
derivative (`dsigm` does not occur). -/
theorem gradients_backprop (expect : Vec) (out : List Vec) (ws : List Mat)
    (hne : ws ≠ []) :
    (gradients expect out ws).length = ws.length ∧
    (gradients expect out ws).getLastD []
      = List.zipWith (· - ·) (out.getLastD []) expect ∧
    ∀ i, i + 1 < ws.length →
      (gradients expect out ws).getD i []
        = matVecMul ((ws.getD (i + 1) []).drop 1)
            ((gradients expect out ws).getD (i + 1) []) :=
  ⟨gradients_length expect out ws,
    gradients_last expect out ws hne,
    gradients_chain expect out ws⟩

/-- Witness for C2 on a concrete two-layer network. -/
theorem gradients_backprop_witness :
    (([[[(1 : ℝ)]], [[(1 : ℝ)], [(1 : ℝ)]]] : List Mat) ≠ []) ∧ 0 + 1 < 2 ∧
    (gradients [(0 : ℝ)] [[(1 : ℝ) / 2], [(1 : ℝ) / 2]]
        [[[(1 : ℝ)]], [[(1 : ℝ)], [(1 : ℝ)]]]).getD 0 []
      = matVecMul
          ((([[[(1 : ℝ)]], [[(1 : ℝ)], [(1 : ℝ)]]] : List Mat).getD 1 []).drop 1)
          ((gradients [(0 : ℝ)] [[(1 : ℝ) / 2], [(1 : ℝ) / 2]]
            [[[(1 : ℝ)]], [[(1 : ℝ)], [(1 : ℝ)]]]).getD 1 []) :=
  ⟨by simp, by norm_num,
    (gradients_backprop [(0 : ℝ)] [[(1 : ℝ) / 2], [(1 : ℝ) / 2]]
      [[[(1 : ℝ)]], [[(1 : ℝ)], [(1 : ℝ)]]] (by simp)).2.2 0 (by norm_num)⟩

lemma sigm_pos (x : ℝ) : 0 < sigm x := by
  rw [sigm]
  positivity

lemma sigm_lt_one (x : ℝ) : sigm x < 1 := by
  rw [sigm, div_lt_one (by positivity)]
  have := Real.exp_pos (-x)
  linarith

lemma vecMatMul_length (v : Vec) (M : Mat) : (vecMatMul v M).length = matCols M := by
  simp [vecMatMul]

lemma execute_length : ∀ (ws : List Mat) (inp : Vec),
    (execute inp ws).length = ws.length := by
  intro ws
  induction ws with
  | nil => intro inp; rfl
  | cons w rest ih => intro inp; simp only [execute, List.length_cons, ih]

lemma execute_mem_bounds : ∀ (ws : List Mat) (inp : Vec),
    ∀ o ∈ execute inp ws, ∀ x ∈ o, 0 < x ∧ x < 1 := by
  intro ws
  induction ws with
  | nil => intro inp o ho; exact absurd ho (List.not_mem_nil o)
  | cons w rest ih =>
    intro inp o ho x hx
    rcases List.mem_cons.mp ho with rfl | ho2
    · obtain ⟨y, _, rfl⟩ := List.mem_map.mp hx
      exact ⟨sigm_pos y, sigm_lt_one y⟩
    · exact ih _ o ho2 x hx

lemma execute_last_cols : ∀ (ws : List Mat) (inp : Vec), ws ≠ [] →
    ((execute inp ws).getLastD []).length = matCols (ws.getLastD []) := by
  intro ws
  induction ws with
  | nil => intro inp h; exact absurd rfl h
  | cons w rest ih =>
    intro inp _
    cases rest with
    | nil =>
      show ((vecMatMul ((1 : ℝ) :: inp) w).map sigm).length = _
      rw [List.length_map, vecMatMul_length]
      rfl
    | cons w2 rest2 =>
      have hne : execute ((vecMatMul ((1 : ℝ) :: inp) w).map sigm) (w2 :: rest2) ≠ [] := by
        intro h
        have := execute_length (w2 :: rest2) ((vecMatMul ((1 : ℝ) :: inp) w).map sigm)
        rw [h] at this
        exact absurd this.symm (by simp)
      rw [show execute inp (w :: w2 :: rest2)
          = (vecMatMul ((1 : ℝ) :: inp) w).map sigm
            :: execute ((vecMatMul ((1 : ℝ) :: inp) w).map sigm) (w2 :: rest2) from rfl,
        getLastD_cons_of_ne_nil _ _ _ hne,
        getLastD_cons_of_ne_nil _ _ _ (by simp)]
      exact ih _ (by simp)

lemma execute_chain : ∀ (ws : List Mat) (inp : Vec) (i : ℕ), i < ws.length →
    (execute inp ws).getD i []
      = (vecMatMul ((1 : ℝ) ::
          (if i = 0 then inp else (execute inp ws).getD (i - 1) []))
          (ws.getD i [])).map sigm := by
  intro ws
  induction ws with
  | nil => intro inp i hi; exact absurd hi (by simp)
  | cons w rest ih =>
    intro inp i hi
    have hunf : execute inp (w :: rest)
        = (vecMatMul ((1 : ℝ) :: inp) w).map sigm
          :: execute ((vecMatMul ((1 : ℝ) :: inp) w).map sigm) rest := rfl
    cases i with
    | zero =>
      rw [hunf]
      simp
    | succ j =>
      rw [hunf]
      simp only [List.getD_cons_succ]
      rw [ih _ j (by simpa using hi)]
      cases j with
      | zero => simp
      | succ k => simp

/-- C6 — the forward pass returns one activated output per layer in
order: each layer's output is the sigmoid of the weighted sum of the
bias-prepended previous activation (`1.0 ::` input), the final output
has as many entries as the last layer has output units (10 when the last
weight matrix has 10 columns), and every element of every layer's output
lies strictly between 0 and 1. -/
theorem execute_forward (inp : Vec) (ws : List Mat) (hne : ws ≠ [])
    (hcols : matCols (ws.getLastD []) = 10) :
    (execute inp ws).length = ws.length ∧
    ((execute inp ws).getLastD []).length = 10 ∧
    (∀ i, i < ws.length →
      (execute inp ws).getD i []
        = (vecMatMul ((1 : ℝ) ::
            (if i = 0 then inp else (execute inp ws).getD (i - 1) []))
            (ws.getD i [])).map sigm) ∧
    ∀ o ∈ execute inp ws, ∀ x ∈ o, 0 < x ∧ x < 1 :=
  ⟨execute_length ws inp,
    (execute_last_cols ws inp hne).trans hcols,
    execute_chain ws inp,
    execute_mem_bounds ws inp⟩

/-- Witness for C6 on a one-layer network with ten output units. -/
theorem execute_forward_witness :
    (([[List.replicate 10 (0 : ℝ)]] : List Mat) ≠ []) ∧
    matCols (([[List.replicate 10 (0 : ℝ)]] : List Mat).getLastD []) = 10 ∧
    ((execute [] [[List.replicate 10 (0 : ℝ)]]).getLastD []).length = 10 :=
  ⟨by simp, by simp [matCols],
    (execute_forward [] [[List.replicate 10 (0 : ℝ)]] (by simp)
      (by simp [matCols])).2.1⟩

/-! ## Lemmas about `error` and `cost` -/

lemma errCount_foldl_le (ws : List Mat) : ∀ (data : List (Vec × Vec)) (c : ℕ),
    data.foldl
      (fun c s =>
        if argmax s.2 ≠ argmax ((execute s.1 ws).getLastD []) then c + 1 else c)
      c ≤ c + data.length := by
  intro data
  induction data with
  | nil => intro c; simp
  | cons s rest ih =>
    intro c
    rw [List.foldl_cons]
    by_cases hs : argmax s.2 ≠ argmax ((execute s.1 ws).getLastD [])
    · rw [if_pos hs]
      have := ih (c + 1)
      simp only [List.length_cons]
      omega
    · rw [if_neg hs]
      have := ih c
      simp only [List.length_cons]
      omega

lemma errCount_le (data : List (Vec × Vec)) (ws : List Mat) :
    errCount data ws ≤ data.length := by
  rw [errCount]
  exact (errCount_foldl_le ws data 0).trans_eq (Nat.zero_add _)

/-- C10 — `error` and `cost` divide by the dataset length, so both fail
with a division-by-zero error on an empty dataset; on a non-empty
dataset `error` returns the number of argmax mismatches divided by the
dataset length, a value in the closed unit interval. -/
theorem error_cost_division (ws : List Mat) :
    error [] ws = none ∧ cost [] ws = none ∧
    ∀ data : List (Vec × Vec), data ≠ [] →
      error data ws = some ((errCount data ws : ℝ) / (data.length : ℝ)) ∧
      errCount data ws ≤ data.length ∧
      ∀ v, error data ws = some v → 0 ≤ v ∧ v ≤ 1 := by
  refine ⟨rfl, rfl, ?_⟩
  intro data hne
  have hlen : data.length ≠ 0 := fun h2 => hne (List.length_eq_zero.mp h2)
  have herr : error data ws = some ((errCount data ws : ℝ) / (data.length : ℝ)) := by
    rw [error, if_neg hlen]
  refine ⟨herr, errCount_le data ws, ?_⟩
  intro v hv
  rw [herr, Option.some.injEq] at hv
  subst hv
  have hpos : (0 : ℝ) < (data.length : ℝ) := by
    exact_mod_cast Nat.pos_of_ne_zero hlen
  constructor
  · exact div_nonneg (Nat.cast_nonneg _) (le_of_lt hpos)
  · rw [div_le_one hpos]
    exact_mod_cast errCount_le data ws

/-- Witness for C10 on a concrete one-sample dataset. -/
theorem error_cost_division_witness :
    (([(([] : Vec), ([] : Vec))] : List (Vec × Vec)) ≠ []) ∧
    error [(([] : Vec), ([] : Vec))] [] = some ((errCount [(([] : Vec), ([] : Vec))] [] : ℝ) / 1) :=
  ⟨by simp,
    by simpa using
      ((error_cost_division []).2.2 [(([] : Vec), ([] : Vec))] (by simp)).1⟩

/-! ## Lemmas about the weight update -/

/-- Modelled from the spec: `new_weights = weights + momentum * old_weights
− learning_rate * (accumulated_delta / batch_count)`. -/
noncomputable def specNewWeights (momentum lr : ℝ) (weights old accumDelta : List Mat)
    (bc : ℕ) : List Mat :=
  wSub (wAdd weights (wScale momentum old)) (wScale lr (wDivNat accumDelta bc))

lemma vAdd_vSub_assoc (a b c : Vec) : vAdd a (vSub b c) = vSub (vAdd a b) c := by
  induction a generalizing b c with
  | nil => simp [vAdd, vSub]
  | cons x a ih =>
    cases b with
    | nil => simp [vAdd, vSub]
    | cons y b =>
      cases c with
      | nil => simp [vAdd, vSub]
      | cons z c =>
        simp only [vAdd, vSub, List.zipWith_cons_cons, List.cons.injEq]
        exact ⟨(add_sub_assoc x y z).symm, ih b c⟩

lemma mAdd_mSub_assoc (A B C : Mat) : mAdd A (mSub B C) = mSub (mAdd A B) C := by
  induction A generalizing B C with
  | nil => simp [mAdd, mSub]
  | cons a A ih =>
    cases B with
    | nil => simp [mAdd, mSub]
    | cons b B =>
      cases C with
      | nil => simp [mAdd, mSub]
      | cons c C =>
        simp only [mAdd, mSub, List.zipWith_cons_cons, List.cons.injEq]
        exact ⟨vAdd_vSub_assoc a b c, ih B C⟩

lemma wAdd_wSub_assoc (X Y Z : List Mat) : wAdd X (wSub Y Z) = wSub (wAdd X Y) Z := by
  induction X generalizing Y Z with
  | nil => simp [wAdd, wSub]
  | cons A X ih =>
    cases Y with
    | nil => simp [wAdd, wSub]
    | cons B Y =>
      cases Z with
      | nil => simp [wAdd, wSub]
      | cons C Z =>
        simp only [wAdd, wSub, List.zipWith_cons_cons, List.cons.injEq]
        exact ⟨mAdd_mSub_assoc A B C, ih Y Z⟩

lemma updateWeights_eq_spec (m r : ℝ) (w old acc : List Mat) (bs : ℕ) :
    updateWeights m r w old acc bs = specNewWeights m r w old acc bs := by
  rw [updateWeights, specNewWeights, wAdd_wSub_assoc]

/-- C1 — whenever the accumulated count reaches the configured batch size
or the sweep reaches the end of the dataset, the trainer computes
`new_weights = weights + momentum * old_weights − learning_rate *
(accumulated_delta / batch_count)` with `batch_count` the number of
samples accumulated since the last update, then sets `old_weights` to the
pre-update weights, `weights` to `new_weights`, and resets the
accumulator to zero; on every other sample it only accumulates. -/
theorem trainer_update_rule (cfg : MLPConfig) (n j : ℕ) (sample : Vec × Vec)
    (s : SweepState) :
    (((s.batchSize + 1 : ℕ) : ℕ∞) = cfg.batch ∨ j + 1 = n →
      sweepStep cfg n j sample s =
        { weights := specNewWeights cfg.momentum cfg.rate s.weights s.old
            (accumAfter sample s) (s.batchSize + 1),
          old := s.weights,
          accum := wZero (specNewWeights cfg.momentum cfg.rate s.weights s.old
            (accumAfter sample s) (s.batchSize + 1)),
          batchSize := 0 }) ∧
    (¬(((s.batchSize + 1 : ℕ) : ℕ∞) = cfg.batch ∨ j + 1 = n) →
      sweepStep cfg n j sample s
        = { s with accum := accumAfter sample s, batchSize := s.batchSize + 1 }) := by
  constructor
  · intro h
    simp only [sweepStep, updateWeights_eq_spec]
    rw [if_pos h]
  · intro h
    simp only [sweepStep]
    rw [if_neg h]

noncomputable def cfgC1 : MLPConfig :=
  { momentum := 1, rate := 0, batch := 1, stop := 0, useValidate := false,
    validate := [], shuffle := fun _ l => l, maxGen := 1 }

noncomputable def sC1 : SweepState := ⟨[[[1]]], [[[1]]], [[[0]]], 0⟩

/-- Witness for C1 at a concrete step where the update fires. -/
theorem trainer_update_rule_witness :
    (((sC1.batchSize + 1 : ℕ) : ℕ∞) = cfgC1.batch ∨ 0 + 1 = 1) ∧
    (sweepStep cfgC1 1 0 ([], [0]) sC1).old = sC1.weights ∧
    (sweepStep cfgC1 1 0 ([], [0]) sC1).batchSize = 0 := by
  have h : ((sC1.batchSize + 1 : ℕ) : ℕ∞) = cfgC1.batch ∨ 0 + 1 = 1 := Or.inr rfl
  refine ⟨h, ?_, ?_⟩ <;>
    rw [(trainer_update_rule cfgC1 1 0 ([], [0]) sC1).1 h]

/-! ## The momentum term on the first update -/

lemma vAdd_scale_self (m : ℝ) (a y : Vec) :
    vAdd a (vSub (a.map (m * ·)) y) = vSub (a.map ((1 + m) * ·)) y := by
  induction a generalizing y with
  | nil => simp [vAdd, vSub]
  | cons x a ih =>
    cases y with
    | nil => simp [vAdd, vSub]
    | cons z y =>
      simp only [vAdd, vSub, List.map_cons, List.zipWith_cons_cons, List.cons.injEq]
      exact ⟨by ring, ih y⟩

lemma mAdd_scale_self (m : ℝ) (A Y : Mat) :
    mAdd A (mSub (mScale m A) Y) = mSub (mScale (1 + m) A) Y := by
  induction A generalizing Y with
  | nil => simp [mAdd, mSub, mScale]
  | cons a A ih =>
    cases Y with
    | nil => simp [mAdd, mSub, mScale]
    | cons y Y =>
      simp only [mAdd, mSub, mScale, List.map_cons, List.zipWith_cons_cons,
        List.cons.injEq]
      exact ⟨vAdd_scale_self m a y, ih Y⟩

lemma wAdd_scale_self (m : ℝ) (W Y : List Mat) :
    wAdd W (wSub (wScale m W) Y) = wSub (wScale (1 + m) W) Y := by
  induction W generalizing Y with
  | nil => simp [wAdd, wSub, wScale]
  | cons A W ih =>
    cases Y with
    | nil => simp [wAdd, wSub, wScale]
    | cons B Y =>
      simp only [wAdd, wSub, wScale, List.map_cons, List.zipWith_cons_cons,
        List.cons.injEq]
      exact ⟨mAdd_scale_self m A B, ih Y⟩

/-- C3 counterexample — with `momentum = 1`, `learning_rate = 0`, initial
weights `[[[1]]]` and `old_weights = weights`, the first update of a run
produces `[[[2]]]`, not the claimed
`weights − learning_rate * (accumulated_delta / batch_count) = [[[1]]]`:
the momentum term contributes `momentum * weights ≠ 0`. -/
theorem momentum_first_update_cex :
    sC1.old = sC1.weights ∧
    (sweepStep cfgC1 1 0 ([], [0]) sC1).weights = [[[(2 : ℝ)]]] ∧
    wSub sC1.weights (wScale cfgC1.rate (wDivNat (accumAfter ([], [0]) sC1) 1))
      = [[[(1 : ℝ)]]] ∧
    ([[[(2 : ℝ)]]] : List Mat) ≠ [[[(1 : ℝ)]]] := by
  refine ⟨rfl, ?_, ?_, ?_⟩
  · simp only [sweepStep]
    rw [if_pos (Or.inr trivial :
      ((sC1.batchSize + 1 : ℕ) : ℕ∞) = cfgC1.batch ∨ True)]
    show updateWeights cfgC1.momentum cfgC1.rate sC1.weights sC1.old
      (accumAfter ([], [0]) sC1) (sC1.batchSize + 1) = [[[(2 : ℝ)]]]
    simp [updateWeights, accumAfter, wAdd, wSub, wScale, wDivNat, mAdd, mSub,
      mScale, mDivNat, vAdd, vSub, execute, gradients, delta, dcost, vecMatMul,
      matCols, cfgC1, sC1]
    norm_num
  · simp [wSub, wScale, wDivNat, mSub, mScale, mDivNat, vSub, accumAfter, wAdd,
      mAdd, vAdd, execute, gradients, delta, dcost, vecMatMul, matCols, cfgC1, sC1]
  · intro h
    have := (List.cons.injEq _ _ _ _).mp h
    have h2 := (List.cons.injEq _ _ _ _).mp this.1
    have h3 := (List.cons.injEq _ _ _ _).mp h2.1
    norm_num at h3

/-- C3 (amended) — because `old_weights = weights` on the first update of
a run, that update computes `new_weights = (1 + momentum) * weights −
learning_rate * (accumulated_delta / batch_count)`: the momentum term
contributes `momentum * weights`, which is zero only when the momentum
coefficient or the weights vanish. -/
theorem momentum_first_update (cfg : MLPConfig) (n j : ℕ) (sample : Vec × Vec)
    (s : SweepState) (hold : s.old = s.weights)
    (hup : ((s.batchSize + 1 : ℕ) : ℕ∞) = cfg.batch ∨ j + 1 = n) :
    (sweepStep cfg n j sample s).weights
      = wSub (wScale (1 + cfg.momentum) s.weights)
          (wScale cfg.rate (wDivNat (accumAfter sample s) (s.batchSize + 1))) := by
  simp only [sweepStep]
  rw [if_pos hup]
  show updateWeights cfg.momentum cfg.rate s.weights s.old
    (accumAfter sample s) (s.batchSize + 1) = _
  rw [hold, updateWeights, wAdd_scale_self]

/-- Witness for C3's amended theorem at the same concrete first update. -/
theorem momentum_first_update_witness :
    sC1.old = sC1.weights ∧
    (((sC1.batchSize + 1 : ℕ) : ℕ∞) = cfgC1.batch ∨ 0 + 1 = 1) ∧
    (sweepStep cfgC1 1 0 ([], [0]) sC1).weights
      = wSub (wScale (1 + cfgC1.momentum) sC1.weights)
          (wScale cfgC1.rate (wDivNat (accumAfter ([], [0]) sC1) (sC1.batchSize + 1))) :=
  ⟨rfl, Or.inr rfl,
    momentum_first_update cfgC1 1 0 ([], [0]) sC1 rfl (Or.inr rfl)⟩

/-! ## Lemmas about the training loop -/

lemma error_eq_some (data : List (Vec × Vec)) (ws : List Mat) (h : data ≠ []) :
    error data ws = some ((errCount data ws : ℝ) / (data.length : ℝ)) := by
  rw [error, if_neg (fun h2 => h (List.length_eq_zero.mp h2))]

lemma errVal_nonneg (data : List (Vec × Vec)) (ws : List Mat) :
    0 ≤ (errCount data ws : ℝ) / (data.length : ℝ) :=
  div_nonneg (Nat.cast_nonneg _) (Nat.cast_nonneg _)

lemma errVal_le_one (data : List (Vec × Vec)) (ws : List Mat) (h : data ≠ []) :
    (errCount data ws : ℝ) / (data.length : ℝ) ≤ 1 := by
  rw [div_le_one (by
    exact_mod_cast Nat.pos_of_ne_zero (fun h2 => h (List.length_eq_zero.mp h2)))]
  exact_mod_cast errCount_le data ws

lemma cost_eq_some (data : List (Vec × Vec)) (ws : List Mat) (h : data ≠ []) :
    cost data ws
      = some ((data.foldl (fun a s => a - sampleCost ws s) 0) / (data.length : ℝ)) := by
  rw [cost, if_neg (fun h2 => h (List.length_eq_zero.mp h2))]

lemma genStep_stop (cfg : MLPConfig) (s : MLPState) (terr verr : ℝ)
    (h1 : error s.train s.weights = some terr)
    (h2 : (if cfg.useValidate then error cfg.validate s.weights else some terr)
      = some verr)
    (h3 : verr ≤ cfg.stop) :
    genStep cfg s = some (Sum.inr s) := by
  rw [genStep, h1, Option.some_bind, h2, Option.some_bind, if_pos h3]

lemma genStep_continue (cfg : MLPConfig) (s : MLPState) (terr verr : ℝ)
    (h1 : error s.train s.weights = some terr)
    (h2 : (if cfg.useValidate then error cfg.validate s.weights else some terr)
      = some verr)
    (h3 : ¬verr ≤ cfg.stop)
    (h4 : s.train ≠ [])
    (h5 : cfg.useValidate = true → cfg.validate ≠ []) :
    genStep cfg s = some (Sum.inl (genNext cfg s terr verr)) := by
  rw [genStep, h1, Option.some_bind, h2, Option.some_bind, if_neg h3,
    cost_eq_some s.train s.weights h4, Option.some_bind]
  cases hv : cfg.useValidate
  · rw [if_neg (by simp), Option.some_bind]
  · rw [cost_eq_some cfg.validate s.weights (h5 hv), if_pos rfl, Option.some_bind]

lemma genNext_gen (cfg : MLPConfig) (s : MLPState) (terr verr : ℝ) :
    (genNext cfg s terr verr).gen = s.gen := by
  cases hv : cfg.useValidate <;> simp [genNext, hv]

lemma genNext_train (cfg : MLPConfig) (s : MLPState) (terr verr : ℝ) :
    (genNext cfg s terr verr).train = cfg.shuffle s.gen s.train := by
  cases hv : cfg.useValidate <;> simp [genNext, hv]

lemma genNext_trainErrors (cfg : MLPConfig) (s : MLPState) (terr verr : ℝ) :
    (genNext cfg s terr verr).trainErrors = s.trainErrors ++ [terr] := by
  cases hv : cfg.useValidate <;> simp [genNext, hv]

lemma run_stops_gen_one (cfg : MLPConfig) (w0 : List Mat)
    (train0 : List (Vec × Vec)) (hstop : 1 ≤ cfg.stop) (hne : train0 ≠ [])
    (hv : cfg.useValidate = true → cfg.validate ≠ [])
    (hgen : 1 ≤ cfg.maxGen) :
    mlp cfg w0 train0 = some ⟨w0, w0, train0, [], [], 1⟩ := by
  obtain ⟨r, hr⟩ : ∃ r, cfg.maxGen = r + 1 := ⟨cfg.maxGen - 1, by omega⟩
  rw [mlp, hr]
  simp only [mlpLoop]
  have hupd : ({ (⟨w0, w0, train0, [], [], 0⟩ : MLPState) with
      gen := (⟨w0, w0, train0, [], [], 0⟩ : MLPState).gen + 1 } : MLPState)
      = ⟨w0, w0, train0, [], [], 1⟩ := rfl
  rw [hupd]
  have hstep : genStep cfg ⟨w0, w0, train0, [], [], 1⟩
      = some (Sum.inr ⟨w0, w0, train0, [], [], 1⟩) := by
    cases hval : cfg.useValidate
    · refine genStep_stop cfg _ ((errCount train0 w0 : ℝ) / (train0.length : ℝ))
        ((errCount train0 w0 : ℝ) / (train0.length : ℝ))
        (error_eq_some train0 w0 hne) ?_ ?_
      · rw [hval]
        exact if_neg (by simp)
      · exact le_trans (errVal_le_one train0 w0 hne) hstop
    · refine genStep_stop cfg _ ((errCount train0 w0 : ℝ) / (train0.length : ℝ))
        ((errCount cfg.validate w0 : ℝ) / (cfg.validate.length : ℝ))
        (error_eq_some train0 w0 hne) ?_ ?_
      · rw [hval, if_pos rfl]
        exact error_eq_some cfg.validate w0 (hv hval)
      · exact le_trans (errVal_le_one cfg.validate w0 (hv hval)) hstop
  rw [hstep, Option.some_bind]

/-- C4 — the convergence check is the first thing a generation does:
whenever the validation error rate (the training error rate when no
validation set is supplied) is at most the stop threshold, the generation
exits with the state untouched — nothing is appended to the trajectories
and no weight update happens; in particular a stop threshold above any
achievable error rate (any threshold ≥ 1) stops the run right after
generation 1 with empty trajectories and the initial weights. -/
theorem convergence_check_first (cfg : MLPConfig) :
    (∀ (s : MLPState) (terr verr : ℝ),
      error s.train s.weights = some terr →
      (if cfg.useValidate then error cfg.validate s.weights else some terr)
        = some verr →
      verr ≤ cfg.stop →
      genStep cfg s = some (Sum.inr s)) ∧
    ∀ (w0 : List Mat) (train0 : List (Vec × Vec)),
      1 ≤ cfg.stop → train0 ≠ [] →
      (cfg.useValidate = true → cfg.validate ≠ []) →
      1 ≤ cfg.maxGen →
      mlp cfg w0 train0 = some ⟨w0, w0, train0, [], [], 1⟩ :=
  ⟨genStep_stop cfg,
    fun w0 train0 h1 h2 h3 h4 => run_stops_gen_one cfg w0 train0 h1 h2 h3 h4⟩

noncomputable def cfgC5 : MLPConfig :=
  { momentum := 0, rate := 0, batch := ⊤, stop := 1, useValidate := false,
    validate := [], shuffle := fun _ l => l, maxGen := 5 }

noncomputable def trainC5 : List (Vec × Vec) := [([], [1, 0]), ([], [0, 1])]

noncomputable def w0C5 : List Mat := [[[0, 0]]]

/-- Witness for C4: a run with stop threshold 1 and maxGen 5 ends right
after generation 1 with nothing recorded. -/
theorem convergence_check_first_witness :
    ((1 : ℝ) ≤ cfgC5.stop ∧ trainC5 ≠ [] ∧ 1 ≤ cfgC5.maxGen) ∧
    mlp cfgC5 w0C5 trainC5 = some ⟨w0C5, w0C5, trainC5, [], [], 1⟩ := by
  refine ⟨⟨le_refl 1, by simp [trainC5], by norm_num [cfgC5]⟩, ?_⟩
  exact (convergence_check_first cfgC5).2 w0C5 trainC5 (le_refl 1)
    (by simp [trainC5]) (by simp [cfgC5]) (by norm_num [cfgC5])

/-- C5 counterexample — with the stop threshold set to 1.0, a two-class
dataset and maximum 5 generations, the trainer stops right after
generation 1 instead of running for exactly 5 generations: every error
rate is ≤ 1, so the convergence check fires immediately. -/
theorem stop_threshold_one_cex :
    (1 : ℝ) ≤ cfgC5.stop ∧ cfgC5.maxGen = 5 ∧
    mlp cfgC5 w0C5 trainC5 = some ⟨w0C5, w0C5, trainC5, [], [], 1⟩ ∧
    (1 : ℕ) ≠ 5 := by
  refine ⟨le_refl 1, rfl, ?_, by norm_num⟩
  exact run_stops_gen_one cfgC5 w0C5 trainC5 (le_refl 1)
    (by simp [trainC5]) (by simp [cfgC5]) (by norm_num [cfgC5])

lemma mlpLoop_no_stop (cfg : MLPConfig) (hstop : cfg.stop < 0)
    (hv : cfg.useValidate = true → cfg.validate ≠ [])
    (hlen : ∀ g l, (cfg.shuffle g l).length = l.length) :
    ∀ (r : ℕ) (s : MLPState), s.train ≠ [] →
      ∃ s2, mlpLoop cfg r s = some s2 ∧ s2.gen = s.gen + r ∧
        s2.trainErrors.length = s.trainErrors.length + r := by
  intro r
  induction r with
  | zero => intro s hs; exact ⟨s, rfl, by omega, by omega⟩
  | succ r ih =>
    intro s hs
    have hs1 : ({ s with gen := s.gen + 1 } : MLPState).train ≠ [] := hs
    have h1 : error ({ s with gen := s.gen + 1 } : MLPState).train
        ({ s with gen := s.gen + 1 } : MLPState).weights
        = some ((errCount s.train s.weights : ℝ) / (s.train.length : ℝ)) :=
      error_eq_some s.train s.weights hs
    have key : ∃ verr,
        (if cfg.useValidate then error cfg.validate
            ({ s with gen := s.gen + 1 } : MLPState).weights
          else some ((errCount s.train s.weights : ℝ) / (s.train.length : ℝ)))
          = some verr ∧ 0 ≤ verr := by
      cases hval : cfg.useValidate
      · exact ⟨_, if_neg (by simp), errVal_nonneg s.train s.weights⟩
      · exact ⟨_, by rw [if_pos rfl]; exact error_eq_some cfg.validate s.weights (hv hval),
          errVal_nonneg cfg.validate s.weights⟩
    obtain ⟨verr, h2, hverr⟩ := key
    have h3 : ¬verr ≤ cfg.stop := fun hle =>
      absurd hstop (not_lt.mpr (hverr.trans hle))
    have hstep := genStep_continue cfg { s with gen := s.gen + 1 } _ verr h1 h2 h3 hs hv
    have hs2t : (genNext cfg { s with gen := s.gen + 1 }
        ((errCount s.train s.weights : ℝ) / (s.train.length : ℝ)) verr).train ≠ [] := by
      rw [genNext_train]
      intro hnil
      have := hlen ({ s with gen := s.gen + 1 } : MLPState).gen
        ({ s with gen := s.gen + 1 } : MLPState).train
      rw [hnil] at this
      exact hs (List.length_eq_zero.mp this.symm)
    obtain ⟨s2, hloop, hgen, herr⟩ := ih _ hs2t
    refine ⟨s2, ?_, ?_, ?_⟩
    · simp only [mlpLoop]
      rw [hstep, Option.some_bind]
      exact hloop
    · rw [hgen, genNext_gen]
      dsimp only
      omega
    · rw [herr, genNext_trainErrors]
      dsimp only
      simp only [List.length_append, List.length_cons, List.length_nil]
      omega

/-- C5 (amended) — if the stop threshold is below every achievable error
rate (below 0, e.g. the default −∞), the trainer runs for exactly the
configured maximum number of generations, never early-stops, and records
one training-error value per generation. -/
theorem stop_below_error_runs_max (cfg : MLPConfig) (w0 : List Mat)
    (train0 : List (Vec × Vec)) (hstop : cfg.stop < 0) (hne : train0 ≠ [])
    (hv : cfg.useValidate = true → cfg.validate ≠ [])
    (hlen : ∀ g l, (cfg.shuffle g l).length = l.length) :
    ∃ s2, mlp cfg w0 train0 = some s2 ∧ s2.gen = cfg.maxGen ∧
      s2.trainErrors.length = cfg.maxGen := by
  obtain ⟨s2, hl2, hg2, he2⟩ := mlpLoop_no_stop cfg hstop hv hlen cfg.maxGen
    ⟨w0, w0, train0, [], [], 0⟩ hne
  exact ⟨s2, hl2, by simpa using hg2, by simpa using he2⟩

noncomputable def cfgC5n : MLPConfig :=
  { momentum := 0, rate := 0, batch := ⊤, stop := -1, useValidate := false,
    validate := [], shuffle := fun _ l => l, maxGen := 2 }

/-- Witness for C5's amended theorem: stop threshold −1, two generations. -/
theorem stop_below_error_runs_max_witness :
    (cfgC5n.stop < 0 ∧ trainC5 ≠ []) ∧
    ∃ s2, mlp cfgC5n w0C5 trainC5 = some s2 ∧ s2.gen = 2 ∧
      s2.trainErrors.length = 2 := by
  refine ⟨⟨by norm_num [cfgC5n], by simp [trainC5]⟩, ?_⟩
  exact stop_below_error_runs_max cfgC5n w0C5 trainC5 (by norm_num [cfgC5n])
    (by simp [trainC5]) (by simp [cfgC5n]) (fun g l => rfl)
